import Mathlib

/-!
Verification of the CHDManUI front-end (src/CHDManUI.py) against its
natural-language specification.

The program is embedded shallowly:

* `choose_subcommand` mirrors the Python function of the same name.
* The incremental progress extractor inside `run_chdman` (the loop that
  appends 64-byte chunks to a rolling buffer, scans the buffer with the
  pattern "one to three digits, optional decimal fraction, optional
  whitespace, percent sign", reports values in [0,100] and truncates the
  buffer to its trailing 16 characters once it exceeds 128) is embedded by
  `matchAt` / `findPercents` / `scanEmit` / `processChunk`.
* Numeric percentage tokens are modelled exactly as decimal rationals
  (`ℚ`); the Python code parses them with `float`, which agrees with the
  exact decimal value on all tokens of the matched shape that are short
  enough to be representable, and the in-range test `0.0 <= pct <= 100.0`
  agrees with the rational comparison on such tokens.
* The subprocess itself is opaque: a run is described by the list of text
  chunks read from its merged stdout/stderr and by a `RunOutcome` (normal
  exit with a code, or an exception raised after some number of chunks).
  `run_chdman` returns, besides the boolean success signal, a record of
  the externally observable actions the claims talk about (whether a
  process was launched, whether the blocking error alert was shown, and
  the ordered list of progress-callback invocations).
* UI updates (`update_status`, `set_progress`, the message boxes) are
  modelled as an ordered trace of `UIEvent`s; the `root.after` dispatch
  only forwards values to the foreground thread and is not itself
  modelled.
-/

/-- Python's `\s` restricted to the ASCII whitespace characters it
matches: space, tab, newline, carriage return, vertical tab, form feed.
The chdman output stream is ASCII text. -/
def isWS (c : Char) : Bool :=
  c = ' ' || c = '\t' || c = '\n' || c = '\r' || c = '\x0b' || c = '\x0c'

/-- Value of a list of decimal digit characters, most significant first. -/
def digitsToNat (ds : List Char) : Nat :=
  ds.foldl (fun a c => a * 10 + (c.toNat - 48)) 0

/-- Exact value of the percentage token with integer digits `ds` and
fractional digits `fd`, i.e. the value Python's `float(m.group(1))`
denotes for the text `ds ++ "." ++ fd` (or just `ds` when `fd = []`). -/
def tokenVal (ds fd : List Char) : ℚ :=
  (digitsToNat ds : ℚ) + (digitsToNat fd : ℚ) / (10 : ℚ) ^ fd.length

/-- The optional fractional part `(?:\.\d+)?` of the pattern: on input
`'.' :: t` with at least one digit following the dot it consumes the dot
and the maximal digit run; otherwise it consumes nothing.  Returns the
fractional digits and the remaining input. -/
def fracPart (r : List Char) : List Char × List Char :=
  match r with
  | [] => ([], [])
  | c :: t =>
    if c = '.' then
      if (t.takeWhile Char.isDigit).length = 0 then ([], c :: t)
      else (t.takeWhile Char.isDigit, t.dropWhile Char.isDigit)
    else ([], c :: t)

/-- Attempt to match the regex `(\d{1,3}(?:\.\d+)?)\s*%` at the head of
`s`, exactly as Python's backtracking engine resolves it: the leading
digit run must have length 1..3 (a run of four or more digits can never
be completed to a match at this position), the optional fraction is a dot
followed by a maximal nonempty digit run, then maximal whitespace, then
`%`.  On success returns the parsed value of group 1 and the input
remaining after the `%`. -/
def matchAt (s : List Char) : Option (ℚ × List Char) :=
  if (s.takeWhile Char.isDigit).length = 0 ∨ 3 < (s.takeWhile Char.isDigit).length then
    none
  else if ((fracPart (s.dropWhile Char.isDigit)).2.dropWhile isWS).head? = some '%' then
    some (tokenVal (s.takeWhile Char.isDigit) (fracPart (s.dropWhile Char.isDigit)).1,
      ((fracPart (s.dropWhile Char.isDigit)).2.dropWhile isWS).tail)
  else none

/-- Fuel-driven worker for `findPercents`; the fuel is an upper bound on
the number of characters still to be examined. -/
def findPercentsGo : Nat → List Char → List ℚ
  | 0, _ => []
  | _ + 1, [] => []
  | fuel + 1, c :: t =>
    match matchAt (c :: t) with
    | some (v, r) => v :: findPercentsGo fuel r
    | none => findPercentsGo fuel t

/-- All values produced by `re.finditer(r"(\d{1,3}(?:\.\d+)?)\s*%", buffer)`
in order: scan left to right, at each position try `matchAt`; on a match
emit its value and continue after the matched text (matches do not
overlap), otherwise advance one character. -/
def findPercents (s : List Char) : List ℚ :=
  findPercentsGo s.length s

/-- One scan of the buffer as performed inside `run_chdman`'s read loop:
every match whose parsed value lies within `[0, 100]` is reported to the
progress callback, in match order. -/
def scanEmit (buf : List Char) : List ℚ :=
  (findPercents buf).filter (fun p => decide ((0 : ℚ) ≤ p) && decide (p ≤ (100 : ℚ)))

/-- State of `run_chdman`'s read loop: the rolling text buffer and the
progress-callback invocations made so far. -/
structure LoopState where
  buffer : List Char
  calls : List ℚ
deriving Repr, DecidableEq

/-- Processing of one chunk read from the child's stdout: append it to
the buffer, scan the whole buffer for percentages when a progress
callback was supplied, then truncate the buffer to its trailing 16
characters if it exceeds 128 characters. -/
def processChunk (hasCb : Bool) (st : LoopState) (chunk : List Char) : LoopState :=
  let buf := st.buffer ++ chunk
  let calls := if hasCb then st.calls ++ scanEmit buf else st.calls
  ⟨if 128 < buf.length then buf.drop (buf.length - 16) else buf, calls⟩

/-- The read loop of `run_chdman` over the whole chunk sequence. -/
def streamLoop (hasCb : Bool) (chunks : List (List Char)) : LoopState :=
  chunks.foldl (processChunk hasCb) ⟨[], []⟩

/-- How an invocation of the external tool ends: either the child process
is awaited and exits with the given code, or an unexpected exception is
raised (during launch when `k = 0`, or while streaming after `k` chunks
were processed). -/
inductive RunOutcome where
  | completed (exitCode : Int)
  | raised (k : Nat)
deriving Repr, DecidableEq

/-- Externally observable behaviour of one `run_chdman` call. -/
structure RunResult where
  /-- Whether a child process was started. -/
  launched : Bool
  /-- Whether the blocking "Could not find chdman.exe!" alert was shown. -/
  errorAlert : Bool
  /-- The progress-callback invocations, in order. -/
  calls : List ℚ
  /-- The boolean return value. -/
  ok : Bool
deriving Repr, DecidableEq

/-- `run_chdman`, parameterised by whether `CHDMAN_PATH` resolved
(`chdmanFound`), whether a progress callback was supplied (`hasCb`), the
chunks read from the child's merged output, and how the run ends.  When
the tool is missing it shows the error alert and returns `False` before
any process is started; an exception anywhere inside the `try` block is
caught and turned into the return value `False`; otherwise the loop runs
to completion, a final `progress_cb(100.0)` is forced on exit code 0, and
the return value is `returncode == 0`. -/
def run_chdman (chdmanFound hasCb : Bool) (chunks : List (List Char))
    (outcome : RunOutcome) : RunResult :=
  if chdmanFound = false then
    { launched := false, errorAlert := true, calls := [], ok := false }
  else
    match outcome with
    | .raised k =>
      { launched := true, errorAlert := false
        calls := (streamLoop hasCb (chunks.take k)).calls, ok := false }
    | .completed code =>
      let st := streamLoop hasCb chunks
      { launched := true, errorAlert := false
        calls := if code = 0 ∧ hasCb = true then st.calls ++ [100] else st.calls
        ok := decide (code = 0) }

/-- `choose_subcommand`: Python's `"PlayStation 2" in system` is the
contiguous-substring test, and `input_path.lower().endswith(".iso")` is
modelled at the character-list level (lower-case each character, test the
suffix).  PS2 DVD images use `createdvd`; everything else `createcd`. -/
def choose_subcommand (system input_path : String) : String :=
  if "PlayStation 2".toList <:+: system.toList ∧
      ".iso".toList <:+ input_path.toList.map Char.toLower
  then "createdvd" else "createcd"

/-! ### The surrounding program functions -/

/-- The fixed `SYSTEM_FILETYPES` table mapping a system name to its
accepted input extensions. -/
def SYSTEM_FILETYPES : List (String × List String) :=
  [("Sony PlayStation (PS1)", [".cue", ".iso"]),
   ("Sony PlayStation 2 (PS2)", [".cue", ".iso"]),
   ("Sega Saturn", [".cue", ".iso"]),
   ("Sega Dreamcast", [".gdi", ".cue", ".cdi", ".iso"]),
   ("Sega / Mega CD", [".cue", ".iso"]),
   ("Neo Geo CD", [".cue", ".iso"]),
   ("TurboGrafx / PC Engine CD", [".cue", ".iso"]),
   ("3DO", [".cue", ".iso"]),
   ("Commodore Amiga CD32", [".cue", ".iso"])]

/-- `build_filetypes`: the file-dialog filters and the extension list for
a system, using the `.get(system, [".cue", ".gdi", ".iso"])` default. -/
def build_filetypes (system : String) : List (String × String) × List String :=
  (([("Disc files",
      String.intercalate " "
        (((SYSTEM_FILETYPES.lookup system).getD [".cue", ".gdi", ".iso"]).map
          (fun e => "*" ++ e))),
     ("All files", "*.*")]),
   (SYSTEM_FILETYPES.lookup system).getD [".cue", ".gdi", ".iso"])

/-- Outcome of the `select_batch` handler: the folder dialog was
cancelled, the "No files" warning was shown (and nothing started), or a
worker thread running `convert_files` was started on the listed files —
the only branch on which any subprocess can ever be launched. -/
inductive BatchSel where
  | cancelled
  | warned
  | started (files : List String) (system : String)
deriving Repr, DecidableEq

/-- `select_batch`, with the folder dialog's answer and the file system
as inputs: `glob f e` lists the files matching `*e` inside folder `f`,
mirroring `glob.glob(os.path.join(folder, f"*{e}"))`. -/
def select_batch (system : String) (folder : Option String)
    (glob : String → String → List String) : BatchSel :=
  match folder with
  | none => .cancelled
  | some f =>
    if ((build_filetypes system).2.foldl (fun acc e => acc ++ glob f e) []).isEmpty
    then .warned
    else .started ((build_filetypes system).2.foldl (fun acc e => acc ++ glob f e) []) system

/-- Python's built-in `round` (round half to even) on a rational. -/
def pythonRound (q : ℚ) : ℤ :=
  if q - ⌊q⌋ < 1/2 then ⌊q⌋
  else if (1 : ℚ)/2 < q - ⌊q⌋ then ⌊q⌋ + 1
  else if 2 ∣ ⌊q⌋ then ⌊q⌋ else ⌊q⌋ + 1

/-- The progress display owned by the UI thread: the integer handed to
the determinate progress bar (`int(round(clamped))`) and the clamped
percentage rendered in the percent label (`f"{clamped:.1f}%"`). -/
structure ProgressDisplay where
  barValue : ℤ
  shown : ℚ
deriving Repr, DecidableEq

/-- `set_progress`: clamp the callback value to [0,100], then apply it
to the progress bar and the percent label. -/
def set_progress (pct : ℚ) : ProgressDisplay :=
  ⟨pythonRound (max 0 (min 100 pct)), max 0 (min 100 pct)⟩

/-- The display after a sequence of `set_progress` callbacks, starting
from the bar's initial zero state; each callback overwrites the previous
display (last writer wins). -/
def displayAfter (ps : List ℚ) : ProgressDisplay :=
  ps.foldl (fun _ p => set_progress p) ⟨0, 0⟩

/-- One file of a batch together with the behaviour of the external tool
on it: its display name, the text chunks its conversion produces, and how
the child process ends. -/
structure FileJob where
  name : String
  chunks : List (List Char)
  outcome : RunOutcome

/-- User-visible events of a batch conversion, in order: the per-file
status line, the idle status, a `set_progress` call, the clearing of the
percent label, and the final summary message box. -/
inductive UIEvent where
  | converting (idx total : Nat) (name : String)
  | idle
  | progress (p : ℚ)
  | clearPercent
  | summary (system : String) (success fail : Nat)
deriving Repr, DecidableEq

/-- Loop body of `convert_files`: status update naming the 1-based index
and the file, progress reset to 0, the conversion itself (all of whose
progress callbacks go to `set_progress`), and the success/fail count. -/
def convertStep (cf : Bool) (total : Nat)
    (st : List UIEvent × Nat × Nat × Nat) (j : FileJob) :
    List UIEvent × Nat × Nat × Nat :=
  (st.1 ++ [UIEvent.converting st.2.1 total j.name, UIEvent.progress 0] ++
      (run_chdman cf true j.chunks j.outcome).calls.map UIEvent.progress,
    st.2.1 + 1,
    if (run_chdman cf true j.chunks j.outcome).ok then st.2.2.1 + 1 else st.2.2.1,
    if (run_chdman cf true j.chunks j.outcome).ok then st.2.2.2 else st.2.2.2 + 1)

/-- `convert_files`: sequentially process the files with the loop body
above, then emit the idle status, a final progress reset, the clearing
of the percent label and the summary box with the accumulated counts. -/
def convert_files (cf : Bool) (system : String) (files : List FileJob) :
    List UIEvent :=
  ((files.foldl (convertStep cf files.length) ([], 1, 0, 0)).1) ++
    [UIEvent.idle, UIEvent.progress 0, UIEvent.clearPercent,
      UIEvent.summary system
        (files.foldl (convertStep cf files.length) ([], 1, 0, 0)).2.2.1
        (files.foldl (convertStep cf files.length) ([], 1, 0, 0)).2.2.2]

/-- Specification-side description of the batch trace: one block per
file, in input order, each block opening with the status line and the
progress reset to 0, followed by that file's progress callbacks. -/
def batchTrace (cf : Bool) (total : Nat) : Nat → List FileJob → List UIEvent
  | _, [] => []
  | idx, j :: rest =>
    (UIEvent.converting idx total j.name :: UIEvent.progress 0 ::
      (run_chdman cf true j.chunks j.outcome).calls.map UIEvent.progress) ++
      batchTrace cf total (idx + 1) rest

/-- Characterisation of a successful `matchAt`: the input splits into
one to three digits, an optional fraction (a dot followed by at least
one digit), whitespace, the percent sign, and the remainder; the value
is the decimal value of the digit groups. -/
def IsTokenAt (s : List Char) (v : ℚ) (rest : List Char) : Prop :=
  ∃ ds fs ws,
    s = ds ++ fs ++ ws ++ '%' :: rest ∧
    (∀ c ∈ ds, c.isDigit = true) ∧ ds ≠ [] ∧ ds.length ≤ 3 ∧
    ((fs = [] ∧ v = tokenVal ds []) ∨
      (∃ fd, fs = '.' :: fd ∧ fd ≠ [] ∧ (∀ c ∈ fd, c.isDigit = true) ∧
        v = tokenVal ds fd)) ∧
    (∀ c ∈ ws, isWS c = true)

/-- Positioned variant of the scan (fuel-driven worker): `pos` is the
stream position of the head of the remaining input; every match is
reported with its start position, its end position and its value. -/
def findSpansGo : Nat → Nat → List Char → List (Nat × Nat × ℚ)
  | 0, _, _ => []
  | _ + 1, _, [] => []
  | fuel + 1, pos, c :: t =>
    match matchAt (c :: t) with
    | some (v, r) =>
      (pos, pos + ((c :: t).length - r.length), v) ::
        findSpansGo fuel (pos + ((c :: t).length - r.length)) r
    | none => findSpansGo fuel (pos + 1) t

/-- The spans of the scan of `s`, with positions counted from `pos`. -/
def findSpansFrom (pos : Nat) (s : List Char) : List (Nat × Nat × ℚ) :=
  findSpansGo s.length pos s

/-- All matches of a whole-stream scan with their positions: for each
match its start position, its end position and its value, in scan
order.  A percentage token straddles a stream position `p` exactly when
its span `(s, e, v)` has `s < p < e`. -/
def findSpans (s : List Char) : List (Nat × Nat × ℚ) :=
  findSpansFrom 0 s

/-- The stream positions at which the read loop truncates its buffer:
with window start `d` and stream position `b`, a chunk growing the
buffer (whose length is the stream position minus the window start)
beyond 128 characters truncates it to its trailing 16 characters, so
the new window starts 16 positions before the new stream position. -/
def truncCuts : List (List Char) → Nat → Nat → List Nat
  | [], _, _ => []
  | c :: l, d, b =>
    if 128 < b + c.length - d then
      (b + c.length - 16) :: truncCuts l (b + c.length - 16) (b + c.length)
    else truncCuts l d (b + c.length)


example : choose_subcommand "Sony PlayStation 2 (PS2)" "Game.ISO" = "createdvd" := by
  with_unfolding_all rfl
example : choose_subcommand "Sony PlayStation 2 (PS2)" "Game.cue" = "createcd" := by
  with_unfolding_all rfl
example : choose_subcommand "Sega Saturn" "Game.iso" = "createcd" := by
  with_unfolding_all rfl
example : findPercents ("12% 3.5%x".toList) = [12, 7/2] := by with_unfolding_all rfl
example : findPercents ("1234%".toList) = [234] := by with_unfolding_all rfl
example : scanEmit ("123.4%".toList) = [] := by with_unfolding_all rfl

/-! ### Structure of a successful match -/

/-- A whitespace character is not a digit, not a percent sign and not a
dot. -/
theorem isWS_elim {c : Char} (h : isWS c = true) :
    c.isDigit = false ∧ c ≠ '%' ∧ c ≠ '.' := by
  simp only [isWS, Bool.or_eq_true, decide_eq_true_eq] at h
  rcases h with ((((h | h) | h) | h) | h) | h <;> subst h <;>
    exact ⟨by decide, by decide, by decide⟩

/-- `takeWhile`/`dropWhile` split a list at the end of its leading
maximal run: if every element of `a` satisfies `p` and `b` is empty or
starts with a violation, the run is exactly `a` and the remainder
exactly `b`. -/
theorem tdw_exact {p : Char → Bool} {a b : List Char}
    (ha : ∀ x ∈ a, p x = true)
    (hb : ∀ h : b ≠ [], p (b.head h) = false) :
    (a ++ b).takeWhile p = a ∧ (a ++ b).dropWhile p = b := by
  have hb' : b.takeWhile p = [] ∧ b.dropWhile p = b := by
    cases b with
    | nil => simp
    | cons c cs =>
      have hc : p c = false := hb (by simp)
      exact ⟨List.takeWhile_cons_of_neg (by simp [hc]),
        List.dropWhile_cons_of_neg (by simp [hc])⟩
  refine ⟨?_, ?_⟩
  · rw [List.takeWhile_append_of_pos (by simpa using ha), hb'.1, List.append_nil]
  · rw [List.dropWhile_append_of_pos (by simpa using ha), hb'.2]

theorem matchAt_some_iff {s : List Char} {v : ℚ} {rest : List Char} :
    matchAt s = some (v, rest) ↔ IsTokenAt s v rest := by
  constructor
  · intro h
    unfold matchAt at h
    by_cases hds : (s.takeWhile Char.isDigit).length = 0 ∨ 3 < (s.takeWhile Char.isDigit).length
    · rw [if_pos hds] at h; simp at h
    · rw [if_neg hds] at h
      push_neg at hds
      obtain ⟨hne0, hle⟩ := hds
      have hdig : ∀ c ∈ s.takeWhile Char.isDigit, c.isDigit = true :=
        fun c hc => List.mem_takeWhile_imp hc
      have hdne : s.takeWhile Char.isDigit ≠ [] := by
        intro hnil; rw [hnil] at hne0; exact hne0 rfl
      have hsplit : s.takeWhile Char.isDigit ++ s.dropWhile Char.isDigit = s :=
        List.takeWhile_append_dropWhile _ _
      rcases hr1 : s.dropWhile Char.isDigit with _ | ⟨c, t⟩
      · rw [hr1] at h
        simp [fracPart] at h
      · rw [hr1] at h
        by_cases hc : c = '.'
        · subst hc
          by_cases hf : (t.takeWhile Char.isDigit).length = 0
          · rw [show fracPart ('.' :: t) = ([], '.' :: t) by simp [fracPart, hf]] at h
            rw [show List.dropWhile isWS ('.' :: t) = '.' :: t from
              List.dropWhile_cons_of_neg (by decide)] at h
            simp at h
          · rw [show fracPart ('.' :: t) =
                  (t.takeWhile Char.isDigit, t.dropWhile Char.isDigit) by
                simp [fracPart, hf]] at h
            rcases hr3 : (t.dropWhile Char.isDigit).dropWhile isWS with _ | ⟨c0, rest'⟩
            · rw [hr3] at h; simp at h
            · rw [hr3] at h
              simp only [List.head?_cons, List.tail_cons] at h
              by_cases hc0 : c0 = '%'
              · subst hc0
                rw [if_pos rfl] at h
                rw [Option.some.injEq, Prod.mk.injEq] at h
                obtain ⟨hv, hrest⟩ := h
                subst hrest
                refine ⟨s.takeWhile Char.isDigit, '.' :: t.takeWhile Char.isDigit,
                  (t.dropWhile Char.isDigit).takeWhile isWS, ?_, hdig, hdne, hle,
                  Or.inr ⟨t.takeWhile Char.isDigit, rfl, ?_,
                    fun c hc => List.mem_takeWhile_imp hc, hv.symm⟩,
                  fun c hc => List.mem_takeWhile_imp hc⟩
                · have ht2 : t.dropWhile Char.isDigit =
                      (t.dropWhile Char.isDigit).takeWhile isWS ++ '%' :: rest' := by
                    conv_lhs => rw [← List.takeWhile_append_dropWhile isWS
                      (t.dropWhile Char.isDigit)]
                    rw [hr3]
                  have ht : t = t.takeWhile Char.isDigit ++
                      ((t.dropWhile Char.isDigit).takeWhile isWS ++ '%' :: rest') := by
                    conv_lhs => rw [← List.takeWhile_append_dropWhile Char.isDigit t]
                    rw [← ht2]
                  conv_lhs => rw [← hsplit, hr1, ht]
                  simp
                · intro hnil; rw [hnil] at hf; exact hf rfl
              · rw [if_neg (by simp only [Option.some.injEq]; exact hc0)] at h
                simp at h
        · rw [show fracPart (c :: t) = ([], c :: t) by simp [fracPart, hc]] at h
          rcases hr3 : (c :: t).dropWhile isWS with _ | ⟨c0, rest'⟩
          · rw [hr3] at h; simp at h
          · rw [hr3] at h
            simp only [List.head?_cons, List.tail_cons] at h
            by_cases hc0 : c0 = '%'
            · subst hc0
              rw [if_pos rfl] at h
              rw [Option.some.injEq, Prod.mk.injEq] at h
              obtain ⟨hv, hrest⟩ := h
              subst hrest
              refine ⟨s.takeWhile Char.isDigit, [], (c :: t).takeWhile isWS, ?_,
                hdig, hdne, hle, Or.inl ⟨rfl, hv.symm⟩,
                fun c hc => List.mem_takeWhile_imp hc⟩
              have ht : c :: t = (c :: t).takeWhile isWS ++ '%' :: rest' := by
                conv_lhs => rw [← List.takeWhile_append_dropWhile isWS (c :: t)]
                rw [hr3]
              conv_lhs => rw [← hsplit, hr1, ht]
              simp
            · rw [if_neg (by simp only [Option.some.injEq]; exact hc0)] at h
              simp at h
  · rintro ⟨ds, fs, ws, hs, hdig, hdne, hle, hfs, hws⟩
    have hcond : ¬(ds.length = 0 ∨ 3 < ds.length) := by
      push_neg
      exact ⟨by simpa [List.length_eq_zero] using hdne, by omega⟩
    have hwsHead : ∀ h : (ws ++ '%' :: rest) ≠ [],
        Char.isDigit ((ws ++ '%' :: rest).head h) = false ∧
          ((ws ++ '%' :: rest).head h) ≠ '.' := by
      intro hne
      cases ws with
      | nil =>
        refine ⟨?_, ?_⟩ <;> · simp only [List.nil_append, List.head_cons]; decide
      | cons w ws' =>
        have hw := isWS_elim (hws w (by simp))
        exact ⟨hw.1, hw.2.2⟩
    have hdwWS : (ws ++ '%' :: rest).dropWhile isWS = '%' :: rest :=
      (tdw_exact hws (fun _ => by simp only [List.head_cons]; decide)).2
    rcases hfs with ⟨rfl, hv⟩ | ⟨fd, rfl, hfdne, hfddig, hv⟩
    · have hs' : s = ds ++ (ws ++ '%' :: rest) := by simpa using hs
      have htdw := tdw_exact (b := ws ++ '%' :: rest) hdig (fun h => (hwsHead h).1)
      unfold matchAt
      rw [hs', htdw.1, htdw.2, if_neg hcond]
      have hfrac : fracPart (ws ++ '%' :: rest) = ([], ws ++ '%' :: rest) := by
        cases ws with
        | nil => simp [fracPart]
        | cons w ws' =>
          have hw := isWS_elim (hws w (by simp))
          simp [fracPart, hw.2.2]
      rw [hfrac]
      simp only [hdwWS, List.head?_cons, List.tail_cons]
      simp [hv]
    · have hs' : s = ds ++ ('.' :: (fd ++ (ws ++ '%' :: rest))) := by
        rw [hs]; simp
      have hfdlen : ¬(fd.length = 0) := by
        simpa [List.length_eq_zero] using hfdne
      have hhead : ∀ h : ('.' :: (fd ++ (ws ++ '%' :: rest))) ≠ [],
          Char.isDigit (('.' :: (fd ++ (ws ++ '%' :: rest))).head h) = false :=
        fun _ => by simp only [List.head_cons]; decide
      have htdw := tdw_exact (b := '.' :: (fd ++ (ws ++ '%' :: rest))) hdig hhead
      have htfd := tdw_exact (b := ws ++ '%' :: rest) hfddig (fun h => (hwsHead h).1)
      unfold matchAt
      rw [hs', htdw.1, htdw.2, if_neg hcond]
      have hfrac : fracPart ('.' :: (fd ++ (ws ++ '%' :: rest))) =
          (fd, ws ++ '%' :: rest) := by
        simp only [fracPart]
        rw [htfd.1, htfd.2]
        simp [hfdlen]
      rw [hfrac]
      simp only [hdwWS, List.head?_cons, List.tail_cons]
      simp [hv]

/-- A successful match consumes at least a digit and the percent sign. -/
theorem matchAt_rest_length {s : List Char} {v : ℚ} {rest : List Char}
    (h : matchAt s = some (v, rest)) : rest.length + 2 ≤ s.length := by
  obtain ⟨ds, fs, ws, hs, _, hdne, _, _, _⟩ := matchAt_some_iff.mp h
  have hpos : 1 ≤ ds.length := List.length_pos.mpr hdne
  rw [hs]
  simp only [List.length_append, List.length_cons]
  omega

/-- A string without a percent sign admits no match at its head. -/
theorem matchAt_none_of_no_pct {s : List Char} (h : '%' ∉ s) : matchAt s = none := by
  cases hm : matchAt s with
  | none => rfl
  | some vr =>
    obtain ⟨v, rest⟩ := vr
    obtain ⟨ds, fs, ws, hs, _⟩ := matchAt_some_iff.mp hm
    exact absurd (show '%' ∈ s by rw [hs]; simp) h

/-- Appending text on the right preserves a successful head match. -/
theorem IsTokenAt.append_right {s : List Char} {v : ℚ} {rest : List Char}
    (h : IsTokenAt s v rest) (ys : List Char) : IsTokenAt (s ++ ys) v (rest ++ ys) := by
  obtain ⟨ds, fs, ws, hs, h1, h2, h3, h4, h5⟩ := h
  exact ⟨ds, fs, ws, by rw [hs]; simp, h1, h2, h3, h4, h5⟩

/-- If the head of `xs` has no match but the head of `xs ++ ys` does,
then the match spans past `xs`, so `xs` consists of match-interior
characters and contains no percent sign. -/
theorem matchAt_left_none_no_pct {xs ys : List Char} {v : ℚ} {rest : List Char}
    (hx : matchAt xs = none) (h : matchAt (xs ++ ys) = some (v, rest)) :
    '%' ∉ xs := by
  obtain ⟨ds, fs, ws, hs, hdig, hdne, hle, hfs, hws⟩ := matchAt_some_iff.mp h
  have hs2 : xs ++ ys = (ds ++ fs ++ ws) ++ '%' :: rest := by
    simp only [hs, List.append_assoc]
  have hpre : ∀ c ∈ ds ++ fs ++ ws, c ≠ '%' := by
    intro c hc
    simp only [List.append_assoc, List.mem_append] at hc
    rcases hc with hc | hc | hc
    · intro hEq; subst hEq; exact absurd (hdig _ hc) (by decide)
    · rcases hfs with ⟨rfl, _⟩ | ⟨fd, rfl, _, hfd, _⟩
      · simp at hc
      · rcases List.mem_cons.mp hc with rfl | hc'
        · decide
        · intro hEq; subst hEq; exact absurd (hfd _ hc') (by decide)
    · intro hEq; subst hEq
      exact absurd (hws _ hc) (by decide)
  by_cases hlen : xs.length ≤ (ds ++ fs ++ ws).length
  · intro hmem
    have h1 : (xs ++ ys).take xs.length = xs := List.take_left xs ys
    have h2 : (xs ++ ys).take xs.length =
        (ds ++ fs ++ ws).take xs.length ++
          ('%' :: rest).take (xs.length - (ds ++ fs ++ ws).length) := by
      rw [hs2, List.take_append_eq_append_take]
    rw [Nat.sub_eq_zero_of_le hlen] at h2
    simp only [List.take_zero, List.append_nil] at h2
    have hx2 : xs = (ds ++ fs ++ ws).take xs.length := by rw [← h2, h1]
    rw [hx2] at hmem
    exact hpre '%' (List.take_subset _ _ hmem) rfl
  · exfalso
    push_neg at hlen
    have h1 : (xs ++ ys).take xs.length = xs := List.take_left xs ys
    obtain ⟨k, hk⟩ : ∃ k, xs.length - (ds ++ fs ++ ws).length = k + 1 :=
      ⟨xs.length - (ds ++ fs ++ ws).length - 1, by omega⟩
    have h2 : (xs ++ ys).take xs.length =
        (ds ++ fs ++ ws) ++ '%' :: rest.take k := by
      rw [hs2, List.take_append_eq_append_take,
        List.take_of_length_le (by omega), hk, List.take_succ_cons]
    have hxs : xs = (ds ++ fs ++ ws) ++ '%' :: rest.take k := by rw [← h2, h1]
    have hsome : matchAt xs = some (v, rest.take k) :=
      matchAt_some_iff.mpr
        ⟨ds, fs, ws, by simp only [hxs, List.append_assoc], hdig, hdne, hle, hfs, hws⟩
    rw [hx] at hsome
    exact Option.noConfusion hsome

/-- The fuel argument of `findPercentsGo` is irrelevant once it is at
least the length of the input. -/
theorem findPercentsGo_congr : ∀ (f : Nat) (s : List Char), s.length ≤ f →
    findPercentsGo f s = findPercents s := by
  intro f
  induction f using Nat.strong_induction_on with
  | _ f ih =>
    intro s hs
    cases s with
    | nil => cases f <;> rfl
    | cons c t =>
      obtain ⟨f', rfl⟩ : ∃ f', f = f' + 1 := by
        cases f with
        | zero => simp at hs
        | succ f' => exact ⟨f', rfl⟩
      simp only [List.length_cons] at hs
      cases hm : matchAt (c :: t) with
      | some vr =>
        obtain ⟨v, r⟩ := vr
        have hr : r.length ≤ t.length := by
          have := matchAt_rest_length hm
          simp only [List.length_cons] at this
          omega
        have e1 : findPercentsGo (f' + 1) (c :: t) = v :: findPercentsGo f' r := by
          simp [findPercentsGo, hm]
        have e2 : findPercents (c :: t) = v :: findPercentsGo t.length r := by
          simp [findPercents, findPercentsGo, hm]
        rw [e1, e2, ih f' (by omega) r (by omega), ih t.length (by omega) r hr]
      | none =>
        have e1 : findPercentsGo (f' + 1) (c :: t) = findPercentsGo f' t := by
          simp [findPercentsGo, hm]
        have e2 : findPercents (c :: t) = findPercentsGo t.length t := by
          simp [findPercents, findPercentsGo, hm]
        rw [e1, e2, ih f' (by omega) t (by omega), ih t.length (by omega) t le_rfl]

theorem findPercents_nil : findPercents [] = [] := rfl

theorem findPercents_cons_some {c : Char} {t : List Char} {v : ℚ} {r : List Char}
    (h : matchAt (c :: t) = some (v, r)) :
    findPercents (c :: t) = v :: findPercents r := by
  have hr : r.length ≤ t.length := by
    have := matchAt_rest_length h
    simp only [List.length_cons] at this
    omega
  have e : findPercents (c :: t) = v :: findPercentsGo t.length r := by
    simp [findPercents, findPercentsGo, h]
  rw [e, findPercentsGo_congr t.length r hr]

theorem findPercents_cons_none {c : Char} {t : List Char}
    (h : matchAt (c :: t) = none) :
    findPercents (c :: t) = findPercents t := by
  have e : findPercents (c :: t) = findPercentsGo t.length t := by
    simp [findPercents, findPercentsGo, h]
  rw [e, findPercentsGo_congr t.length t le_rfl]

/-- A percent-free string yields no percentages. -/
theorem findPercents_eq_nil {s : List Char} (h : '%' ∉ s) : findPercents s = [] := by
  induction s with
  | nil => rfl
  | cons c t ih =>
    rw [findPercents_cons_none (matchAt_none_of_no_pct h)]
    exact ih (fun hm => h (List.mem_cons_of_mem c hm))

/-- Scanning a left part of the stream yields an initial segment of the
scan of the whole stream: percentages are found left to right, and a
match of the left part is a match of the whole. -/
theorem findPercents_mono_aux : ∀ (n : Nat) (xs ys : List Char), xs.length ≤ n →
    findPercents xs <+: findPercents (xs ++ ys) := by
  intro n
  induction n with
  | zero =>
    intro xs ys h
    have hx : xs = [] := List.length_eq_zero.mp (Nat.le_zero.mp h)
    subst hx
    exact ⟨findPercents ys, by simp [findPercents_nil]⟩
  | succ n ih =>
    intro xs ys h
    cases xs with
    | nil => exact ⟨findPercents ys, by simp [findPercents_nil]⟩
    | cons c t =>
      simp only [List.length_cons] at h
      cases hm : matchAt (c :: t) with
      | some vr =>
        obtain ⟨v, r⟩ := vr
        have hext : matchAt (c :: (t ++ ys)) = some (v, r ++ ys) :=
          matchAt_some_iff.mpr ((matchAt_some_iff.mp hm).append_right ys)
        rw [findPercents_cons_some hm,
          show (c :: t) ++ ys = c :: (t ++ ys) from rfl,
          findPercents_cons_some hext]
        have hr : r.length ≤ n := by
          have := matchAt_rest_length hm
          simp only [List.length_cons] at this
          omega
        exact List.cons_prefix_cons.mpr ⟨rfl, ih r ys hr⟩
      | none =>
        cases hm2 : matchAt (c :: (t ++ ys)) with
        | none =>
          rw [findPercents_cons_none hm,
            show (c :: t) ++ ys = c :: (t ++ ys) from rfl,
            findPercents_cons_none hm2]
          exact ih t ys (by omega)
        | some vr =>
          obtain ⟨v, r⟩ := vr
          have hnp : '%' ∉ (c :: t) := matchAt_left_none_no_pct hm hm2
          rw [findPercents_eq_nil hnp]
          exact ⟨findPercents ((c :: t) ++ ys), by simp⟩

/-- A scan of a left part of the stream is an initial segment of a scan
of the whole. -/
theorem findPercents_mono (xs ys : List Char) :
    findPercents xs <+: findPercents (xs ++ ys) :=
  findPercents_mono_aux xs.length xs ys le_rfl

/-- Every valid percentage emitted for a left part of the stream is also
emitted by a scan of the whole stream. -/
theorem scanEmit_mono {xs T : List Char} (h : xs <+: T) :
    ∀ v ∈ scanEmit xs, v ∈ scanEmit T := by
  obtain ⟨t, rfl⟩ := h
  intro v hv
  rw [scanEmit, List.mem_filter] at hv ⊢
  exact ⟨(findPercents_mono xs t).subset hv.1, hv.2⟩

/-- One loop step with a callback present, written out. -/
theorem processChunk_true (st : LoopState) (c : List Char) :
    processChunk true st c =
      ⟨if 128 < (st.buffer ++ c).length then
          (st.buffer ++ c).drop ((st.buffer ++ c).length - 16)
        else st.buffer ++ c,
       st.calls ++ scanEmit (st.buffer ++ c)⟩ := by
  simp [processChunk]

/-- The fuel argument of `findSpansGo` is irrelevant once it is at least
the length of the input. -/
theorem findSpansGo_congr : ∀ (f : Nat) (pos : Nat) (s : List Char), s.length ≤ f →
    findSpansGo f pos s = findSpansFrom pos s := by
  intro f
  induction f using Nat.strong_induction_on with
  | _ f ih =>
    intro pos s hs
    cases s with
    | nil => cases f <;> rfl
    | cons c t =>
      obtain ⟨f', rfl⟩ : ∃ f', f = f' + 1 := by
        cases f with
        | zero => simp at hs
        | succ f' => exact ⟨f', rfl⟩
      simp only [List.length_cons] at hs
      cases hm : matchAt (c :: t) with
      | some vr =>
        obtain ⟨v, r⟩ := vr
        have hr : r.length ≤ t.length := by
          have := matchAt_rest_length hm
          simp only [List.length_cons] at this
          omega
        have e1 : findSpansGo (f' + 1) pos (c :: t) =
            (pos, pos + ((c :: t).length - r.length), v) ::
              findSpansGo f' (pos + ((c :: t).length - r.length)) r := by
          simp [findSpansGo, hm]
        have e2 : findSpansFrom pos (c :: t) =
            (pos, pos + ((c :: t).length - r.length), v) ::
              findSpansGo t.length (pos + ((c :: t).length - r.length)) r := by
          simp [findSpansFrom, findSpansGo, hm]
        rw [e1, e2, ih f' (by omega) _ r (by omega), ih t.length (by omega) _ r hr]
      | none =>
        have e1 : findSpansGo (f' + 1) pos (c :: t) = findSpansGo f' (pos + 1) t := by
          simp [findSpansGo, hm]
        have e2 : findSpansFrom pos (c :: t) = findSpansGo t.length (pos + 1) t := by
          simp [findSpansFrom, findSpansGo, hm]
        rw [e1, e2, ih f' (by omega) _ t (by omega), ih t.length (by omega) _ t le_rfl]

theorem findSpansFrom_cons_some {c : Char} {t : List Char} {v : ℚ} {r : List Char}
    (pos : Nat) (h : matchAt (c :: t) = some (v, r)) :
    findSpansFrom pos (c :: t) =
      (pos, pos + ((c :: t).length - r.length), v) ::
        findSpansFrom (pos + ((c :: t).length - r.length)) r := by
  have hr : r.length ≤ t.length := by
    have := matchAt_rest_length h
    simp only [List.length_cons] at this
    omega
  have e : findSpansFrom pos (c :: t) =
      (pos, pos + ((c :: t).length - r.length), v) ::
        findSpansGo t.length (pos + ((c :: t).length - r.length)) r := by
    simp [findSpansFrom, findSpansGo, h]
  rw [e, findSpansGo_congr t.length _ r hr]

theorem findSpansFrom_cons_none {c : Char} {t : List Char} (pos : Nat)
    (h : matchAt (c :: t) = none) :
    findSpansFrom pos (c :: t) = findSpansFrom (pos + 1) t := by
  have e : findSpansFrom pos (c :: t) = findSpansGo t.length (pos + 1) t := by
    simp [findSpansFrom, findSpansGo, h]
  rw [e, findSpansGo_congr t.length _ t le_rfl]

theorem findSpansFrom_eq_nil {s : List Char} (pos : Nat) (h : '%' ∉ s) :
    findSpansFrom pos s = [] := by
  induction s generalizing pos with
  | nil => rfl
  | cons c t ih =>
    rw [findSpansFrom_cons_none pos (matchAt_none_of_no_pct h)]
    exact ih (pos + 1) (fun hm => h (List.mem_cons_of_mem c hm))

/-- The spans found in a left part of the stream are an initial segment
of the spans of the whole stream, at the same positions. -/
theorem findSpansFrom_mono_aux : ∀ (n : Nat) (xs ys : List Char) (pos : Nat),
    xs.length ≤ n →
    findSpansFrom pos xs <+: findSpansFrom pos (xs ++ ys) := by
  intro n
  induction n with
  | zero =>
    intro xs ys pos h
    have hx : xs = [] := List.length_eq_zero.mp (Nat.le_zero.mp h)
    subst hx
    exact ⟨findSpansFrom pos ys, rfl⟩
  | succ n ih =>
    intro xs ys pos h
    cases xs with
    | nil => exact ⟨findSpansFrom pos ys, rfl⟩
    | cons c t =>
      simp only [List.length_cons] at h
      cases hm : matchAt (c :: t) with
      | some vr =>
        obtain ⟨v, r⟩ := vr
        have hext : matchAt (c :: (t ++ ys)) = some (v, r ++ ys) :=
          matchAt_some_iff.mpr ((matchAt_some_iff.mp hm).append_right ys)
        rw [findSpansFrom_cons_some pos hm,
          show (c :: t) ++ ys = c :: (t ++ ys) from rfl,
          findSpansFrom_cons_some pos hext]
        have hlen : (c :: (t ++ ys)).length - (r ++ ys).length =
            (c :: t).length - r.length := by
          have := matchAt_rest_length hm
          simp only [List.length_cons, List.length_append] at this ⊢
          omega
        rw [hlen]
        have hr : r.length ≤ n := by
          have := matchAt_rest_length hm
          simp only [List.length_cons] at this
          omega
        exact List.cons_prefix_cons.mpr ⟨rfl, ih r ys _ hr⟩
      | none =>
        cases hm2 : matchAt (c :: (t ++ ys)) with
        | none =>
          rw [findSpansFrom_cons_none pos hm,
            show (c :: t) ++ ys = c :: (t ++ ys) from rfl,
            findSpansFrom_cons_none pos hm2]
          exact ih t ys _ (by omega)
        | some vr =>
          obtain ⟨v, r⟩ := vr
          have hnp : '%' ∉ (c :: t) := matchAt_left_none_no_pct hm hm2
          rw [findSpansFrom_eq_nil pos hnp]
          exact ⟨findSpansFrom pos ((c :: t) ++ ys), rfl⟩

/-- Every span of the scan of an initial part of the stream is a span of
the scan of the whole stream. -/
theorem findSpans_take_subset {S : List Char} {m : Nat} :
    ∀ sp ∈ findSpans (S.take m), sp ∈ findSpans S := by
  intro sp hsp
  have hmono := findSpansFrom_mono_aux (S.take m).length (S.take m) (S.drop m) 0 le_rfl
  rw [List.take_append_drop] at hmono
  exact hmono.subset hsp

/-- A match of `A ++ B` that ends inside `A` (at least `B.length`
characters of the input are left over) is already a match of `A` with
the same value, `B` still unconsumed. -/
theorem matchAt_within {A B : List Char} {v : ℚ} {rest : List Char}
    (h : matchAt (A ++ B) = some (v, rest)) (hB : B.length ≤ rest.length) :
    matchAt A = some (v, rest.take (rest.length - B.length)) ∧
      rest = rest.take (rest.length - B.length) ++ B := by
  obtain ⟨ds, fs, ws, hs, hdig, hdne, hle, hfs, hws⟩ := matchAt_some_iff.mp h
  have hs2 : A ++ B = (ds ++ fs ++ ws) ++ '%' :: rest := by
    simp only [hs, List.append_assoc]
  have hL := congrArg List.length hs2
  simp only [List.length_append, List.length_cons] at hL
  have hpreA : (ds ++ fs ++ ws).length < A.length := by
    simp only [List.length_append] at hL ⊢
    omega
  have hk : A.length - (ds ++ fs ++ ws).length = (rest.length - B.length) + 1 := by
    simp only [List.length_append] at hL hpreA ⊢
    omega
  have h1 : (A ++ B).take A.length = A := List.take_left A B
  have h2 : (A ++ B).take A.length =
      (ds ++ fs ++ ws) ++ '%' :: rest.take (rest.length - B.length) := by
    rw [hs2, List.take_append_eq_append_take,
      List.take_of_length_le (Nat.le_of_lt hpreA), hk, List.take_succ_cons]
  have hA : A = (ds ++ fs ++ ws) ++ '%' :: rest.take (rest.length - B.length) := by
    rw [← h2, h1]
  refine ⟨matchAt_some_iff.mpr
    ⟨ds, fs, ws, by simp only [hA, List.append_assoc], hdig, hdne, hle, hfs, hws⟩, ?_⟩
  have h3 : (ds ++ fs ++ ws) ++ '%' :: (rest.take (rest.length - B.length) ++ B) =
      (ds ++ fs ++ ws) ++ '%' :: rest := by
    rw [show (ds ++ fs ++ ws) ++ '%' :: (rest.take (rest.length - B.length) ++ B) =
        ((ds ++ fs ++ ws) ++ '%' :: rest.take (rest.length - B.length)) ++ B by simp,
      ← hA, hs2]
  have h4 := List.append_cancel_left h3
  injection h4 with _ h5
  exact h5.symm

/-- If no span of the scan of `A ++ B` crosses the boundary after `A`,
the scan splits there: the percentages of `A ++ B` are those of `A`
followed by those of `B`.  The failure of this hypothesis is exactly a
token straddling the boundary. -/
theorem findPercents_append_of_no_cross :
    ∀ (n : Nat) (A B : List Char) (pos : Nat), A.length ≤ n →
    (∀ sp ∈ findSpansFrom pos (A ++ B),
      sp.2.1 ≤ pos + A.length ∨ pos + A.length ≤ sp.1) →
    findPercents (A ++ B) = findPercents A ++ findPercents B := by
  intro n
  induction n with
  | zero =>
    intro A B pos h _
    have hx : A = [] := List.length_eq_zero.mp (Nat.le_zero.mp h)
    subst hx
    simp [findPercents_nil]
  | succ n ih =>
    intro A B pos h hcross
    cases A with
    | nil => simp [findPercents_nil]
    | cons c t =>
      simp only [List.length_cons] at h
      cases hm : matchAt (c :: (t ++ B)) with
      | some vr =>
        obtain ⟨v, rest'⟩ := vr
        have hspan := findSpansFrom_cons_some (t := t ++ B) pos hm
        have hhead : ((pos, pos + ((c :: (t ++ B)).length - rest'.length), v) :
            Nat × Nat × ℚ) ∈ findSpansFrom pos ((c :: t) ++ B) := by
          rw [show (c :: t) ++ B = c :: (t ++ B) from rfl, hspan]
          exact List.mem_cons_self _ _
        have hc1 := hcross _ hhead
        have hlen2 : rest'.length + 2 ≤ t.length + B.length + 1 := by
          have := matchAt_rest_length hm
          simp only [List.length_cons, List.length_append] at this
          omega
        have hB : B.length ≤ rest'.length := by
          rcases hc1 with hc1 | hc1
          · simp only [List.length_cons, List.length_append] at hc1
            omega
          · simp only [List.length_cons] at hc1
            omega
        obtain ⟨hmA, hrest⟩ := matchAt_within (A := c :: t) (B := B) hm hB
        have hrlen : (rest'.take (rest'.length - B.length)).length =
            rest'.length - B.length := by
          rw [List.length_take]
          omega
        have hIH := ih (rest'.take (rest'.length - B.length)) B
          (pos + ((c :: (t ++ B)).length - rest'.length))
          (by rw [hrlen]; simp only [List.length_cons, List.length_append] at hc1 ⊢; omega)
          (by
            intro sp hsp
            rw [← hrest] at hsp
            have hsp' : sp ∈ findSpansFrom pos ((c :: t) ++ B) := by
              rw [show (c :: t) ++ B = c :: (t ++ B) from rfl, hspan]
              exact List.mem_cons_of_mem _ hsp
            have hcr := hcross sp hsp'
            have hEq : pos + ((c :: (t ++ B)).length - rest'.length) +
                (rest'.take (rest'.length - B.length)).length =
                pos + (c :: t).length := by
              rw [hrlen]
              simp only [List.length_cons, List.length_append]
              omega
            rw [hEq]
            exact hcr)
        calc findPercents ((c :: t) ++ B)
            = v :: findPercents rest' := findPercents_cons_some hm
          _ = v :: findPercents (rest'.take (rest'.length - B.length) ++ B) := by
              rw [← hrest]
          _ = v :: (findPercents (rest'.take (rest'.length - B.length)) ++
              findPercents B) := by rw [hIH]
          _ = findPercents (c :: t) ++ findPercents B := by
              rw [findPercents_cons_some hmA]
              simp [List.cons_append]
      | none =>
        have hmA : matchAt (c :: t) = none := by
          cases hmA : matchAt (c :: t) with
          | none => rfl
          | some vr =>
            obtain ⟨v0, r0⟩ := vr
            have hext := matchAt_some_iff.mpr
              ((matchAt_some_iff.mp hmA).append_right B)
            rw [show (c :: t) ++ B = c :: (t ++ B) from rfl] at hext
            rw [hext] at hm
            exact Option.noConfusion hm
        rw [show (c :: t) ++ B = c :: (t ++ B) from rfl,
          findPercents_cons_none hm, findPercents_cons_none hmA]
        apply ih t B (pos + 1) (by omega)
        intro sp hsp
        have hsp' : sp ∈ findSpansFrom pos (c :: (t ++ B)) := by
          rw [findSpansFrom_cons_none pos hm]
          exact hsp
        have hcr := hcross sp hsp'
        have hEq : pos + 1 + t.length = pos + (c :: t).length := by
          simp only [List.length_cons]
          omega
        rw [hEq]
        exact hcr

/-- Membership in one scan's emissions. -/
theorem scanEmit_mem {b : List Char} {v : ℚ} :
    v ∈ scanEmit b ↔ v ∈ findPercents b ∧ (0 ≤ v ∧ v ≤ 100) := by
  rw [scanEmit, List.mem_filter]
  simp

/-- Main loop invariant: processing the remaining chunks from a state
whose buffer is the current window of the stream — provided no span of
the full stream crosses any remaining truncation cut — reports exactly
the valid percentages of a single full-stream scan. -/
theorem chunk_loop_aux (S : List Char) :
    ∀ (todo : List (List Char)) (d b : Nat) (st : LoopState),
    todo.flatten = S.drop b →
    b ≤ S.length →
    st.buffer = (S.take b).drop d →
    d ≤ b →
    (∀ v ∈ scanEmit (S.take b), v ∈ st.calls) →
    (∀ v ∈ st.calls, v ∈ scanEmit S) →
    (∀ m, d ≤ m → m ≤ S.length →
      findPercents (S.take m) =
        findPercents (S.take d) ++ findPercents ((S.take m).drop d)) →
    (∀ p ∈ truncCuts todo d b, ∀ sp ∈ findSpans S, sp.2.1 ≤ p ∨ p ≤ sp.1) →
    (∀ v ∈ (todo.foldl (processChunk true) st).calls, v ∈ scanEmit S) ∧
    (∀ v ∈ scanEmit S, v ∈ (todo.foldl (processChunk true) st).calls) := by
  intro todo
  induction todo with
  | nil =>
    intro d b st h1 h2 h3 h4 h5 h6 h7 h8
    simp only [List.foldl_nil]
    refine ⟨h6, ?_⟩
    have h1' : S.drop b = [] := by simpa using h1.symm
    have hb : b = S.length := Nat.le_antisymm h2 (List.drop_eq_nil_iff.mp h1')
    intro v hv
    apply h5
    rw [hb, List.take_length]
    exact hv
  | cons c rest ih =>
    intro d b st h1 h2 h3 h4 h5 h6 h7 h8
    have h1' : c ++ rest.flatten = S.drop b := by simpa using h1
    have hc : (S.drop b).take c.length = c := by
      rw [← h1']
      exact List.take_left c rest.flatten
    have hb' : b + c.length ≤ S.length := by
      have := congrArg List.length h1'
      simp only [List.length_append, List.length_drop] at this
      omega
    have hrest : rest.flatten = S.drop (b + c.length) := by
      have e : rest.flatten = (S.drop b).drop c.length := by
        rw [← h1']
        exact (List.drop_left c rest.flatten).symm
      rw [e, List.drop_drop]
    have htake : S.take (b + c.length) = S.take b ++ c := by
      rw [List.take_add, hc]
    have hlb : (S.take b).length = b := by
      rw [List.length_take]
      omega
    have hbuf : st.buffer ++ c = (S.take (b + c.length)).drop d := by
      rw [h3, htake, List.drop_append_eq_append_drop, hlb,
        show d - b = 0 from by omega, List.drop_zero]
    have hlb' : (S.take (b + c.length)).length = b + c.length := by
      rw [List.length_take]
      omega
    have hbuflen : (st.buffer ++ c).length = b + c.length - d := by
      rw [hbuf, List.length_drop, hlb']
    have hSd_split : findPercents S =
        findPercents (S.take d) ++ findPercents (S.drop d) := by
      have := h7 S.length (by omega) le_rfl
      rwa [List.take_length] at this
    have hWpref : (S.take (b + c.length)).drop d <+: S.drop d := by
      refine ⟨S.drop (b + c.length), ?_⟩
      conv_rhs => rw [show S.drop d =
        (S.take (b + c.length) ++ S.drop (b + c.length)).drop d from by
          rw [List.take_append_drop]]
      rw [List.drop_append_eq_append_drop, hlb',
        show d - (b + c.length) = 0 from by omega, List.drop_zero]
    have hWsound : ∀ v ∈ scanEmit ((S.take (b + c.length)).drop d), v ∈ scanEmit S := by
      intro v hv
      have hv2 : v ∈ scanEmit (S.drop d) := scanEmit_mono hWpref v hv
      rw [scanEmit_mem] at hv2 ⊢
      exact ⟨by rw [hSd_split]; exact List.mem_append.mpr (Or.inr hv2.1), hv2.2⟩
    have hPrefDone : ∀ v ∈ scanEmit (S.take (b + c.length)),
        v ∈ st.calls ++ scanEmit ((S.take (b + c.length)).drop d) := by
      intro v hv
      rw [scanEmit_mem] at hv
      obtain ⟨hvFP, hval⟩ := hv
      rw [h7 (b + c.length) (by omega) hb'] at hvFP
      rcases List.mem_append.mp hvFP with hvd | hvW
      · refine List.mem_append.mpr (Or.inl ?_)
        apply h5
        rw [scanEmit_mem]
        refine ⟨?_, hval⟩
        have hsplit_b : S.take b = S.take d ++ (S.take b).drop d := by
          conv_lhs => rw [← List.take_append_drop d (S.take b)]
          rw [List.take_take, Nat.min_eq_left h4]
        have hmono := findPercents_mono (S.take d) ((S.take b).drop d)
        rw [← hsplit_b] at hmono
        exact hmono.subset hvd
      · refine List.mem_append.mpr (Or.inr ?_)
        rw [scanEmit_mem]
        exact ⟨hvW, hval⟩
    rw [List.foldl_cons, processChunk_true st c]
    by_cases hT : 128 < (st.buffer ++ c).length
    · rw [if_pos hT]
      have hTn : 128 < b + c.length - d := by rwa [hbuflen] at hT
      have hnewbuf : (st.buffer ++ c).drop ((st.buffer ++ c).length - 16) =
          (S.take (b + c.length)).drop (b + c.length - 16) := by
        rw [hbuflen, hbuf, List.drop_drop]
        congr 1
        omega
      have hcut : truncCuts (c :: rest) d b =
          (b + c.length - 16) :: truncCuts rest (b + c.length - 16) (b + c.length) := by
        simp only [truncCuts, if_pos hTn]
      have hsplit' : ∀ m, b + c.length - 16 ≤ m → m ≤ S.length →
          findPercents (S.take m) =
            findPercents (S.take (b + c.length - 16)) ++
              findPercents ((S.take m).drop (b + c.length - 16)) := by
        intro m hm1 hm2
        have hd'len : (S.take (b + c.length - 16)).length = b + c.length - 16 := by
          rw [List.length_take]
          omega
        have hAB : S.take (b + c.length - 16) ++ (S.take m).drop (b + c.length - 16) =
            S.take m := by
          conv_rhs => rw [← List.take_append_drop (b + c.length - 16) (S.take m)]
          rw [List.take_take, Nat.min_eq_left hm1]
        conv_lhs => rw [← hAB]
        apply findPercents_append_of_no_cross
          (S.take (b + c.length - 16)).length _ _ 0 le_rfl
        intro sp hsp
        rw [hAB] at hsp
        have hspS : sp ∈ findSpans S := findSpans_take_subset sp hsp
        have hnc := h8 (b + c.length - 16)
          (by rw [hcut]; exact List.mem_cons_self _ _) sp hspS
        rw [hd'len]
        simpa using hnc
      rw [hnewbuf, hbuf]
      refine ih (b + c.length - 16) (b + c.length) _ hrest hb' rfl (by omega)
        hPrefDone ?_ hsplit' ?_
      · intro v hv
        rcases List.mem_append.mp hv with hv | hv
        · exact h6 v hv
        · exact hWsound v hv
      · intro p hp
        exact h8 p (by rw [hcut]; exact List.mem_cons_of_mem _ hp)
    · rw [if_neg hT]
      have hTn : ¬ 128 < b + c.length - d := by rwa [hbuflen] at hT
      have hcut : truncCuts (c :: rest) d b = truncCuts rest d (b + c.length) := by
        simp only [truncCuts, if_neg hTn]
      rw [hbuf]
      refine ih d (b + c.length) _ hrest hb' rfl (by omega)
        hPrefDone ?_ h7 ?_
      · intro v hv
        rcases List.mem_append.mp hv with hv | hv
        · exact h6 v hv
        · exact hWsound v hv
      · intro p hp
        exact h8 p (by rw [hcut]; exact hp)


/-! ### Claims -/

/-- C1: `choose_subcommand` returns the DVD subcommand `"createdvd"`
exactly when the system string denotes the DVD-capable platform (it
contains "PlayStation 2") and the input path's extension, compared
case-insensitively, is `.iso`; in every other combination it returns
the CD subcommand `"createcd"`. -/
theorem choose_subcommand_spec (system input_path : String) :
    (choose_subcommand system input_path = "createdvd" ↔
      ("PlayStation 2".toList <:+: system.toList ∧
        ".iso".toList <:+ input_path.toList.map Char.toLower)) ∧
    (choose_subcommand system input_path = "createcd" ↔
      ¬("PlayStation 2".toList <:+: system.toList ∧
        ".iso".toList <:+ input_path.toList.map Char.toLower)) := by
  unfold choose_subcommand
  by_cases h : "PlayStation 2".toList <:+: system.toList ∧
      ".iso".toList <:+ input_path.toList.map Char.toLower
  · rw [if_pos h]
    exact ⟨⟨fun _ => h, fun _ => rfl⟩,
      ⟨fun hEq => absurd hEq (by decide), fun hn => absurd h hn⟩⟩
  · rw [if_neg h]
    exact ⟨⟨fun hEq => absurd hEq (by decide), fun hc => absurd hc h⟩,
      ⟨fun _ => h, fun _ => rfl⟩⟩

/-- C2: whenever the tool is present, a progress callback is supplied
and the child exits with code 0, the last progress-callback invocation
of `run_chdman` carries exactly 100, whatever chunks were streamed and
whatever was parsed from them before. -/
theorem run_chdman_completed_hundred (chunks : List (List Char)) :
    (run_chdman true true chunks (RunOutcome.completed 0)).calls.getLast? =
      some 100 := by
  unfold run_chdman
  simp [List.getLast?_concat]

/-- C6: when the tool is found and the child process is launched and
awaited without an exception, the boolean result of `run_chdman` is
exactly (exit code == 0). -/
theorem run_chdman_ok_iff_exit_zero (hasCb : Bool) (chunks : List (List Char))
    (code : Int) :
    (run_chdman true hasCb chunks (RunOutcome.completed code)).ok = true ↔
      code = 0 := by
  unfold run_chdman
  simp

/-- C7: an unexpected exception while launching (`k = 0`) or while
streaming (after `k` chunks) makes `run_chdman` return `False`; the
model's total return value is the absence of propagation — the `except`
clause converts the exception into the `False` return. -/
theorem run_chdman_exception_returns_false (hasCb : Bool)
    (chunks : List (List Char)) (k : Nat) :
    (run_chdman true hasCb chunks (RunOutcome.raised k)).ok = false := by
  unfold run_chdman
  simp

/-- C8: when the external tool cannot be located, `run_chdman` shows the
blocking error alert and returns `False` with no process launched, no
output captured and the progress callback never invoked. -/
theorem run_chdman_tool_missing (hasCb : Bool) (chunks : List (List Char))
    (outcome : RunOutcome) :
    run_chdman false hasCb chunks outcome =
      { launched := false, errorAlert := true, calls := [], ok := false } := rfl

/-- C4: a buffer scan reports exactly the parsed percentages lying in
[0, 100]; the buffer "123.4%" parses to the single match 123.4 = 617/5,
which is above 100 and therefore produces no callback. -/
theorem scanEmit_range_filter (buf : List Char) (v : ℚ) :
    (v ∈ scanEmit buf ↔ v ∈ findPercents buf ∧ (0 ≤ v ∧ v ≤ 100)) ∧
    findPercents ("123.4%".toList) = [617/5] ∧
    scanEmit ("123.4%".toList) = [] := by
  refine ⟨?_, by with_unfolding_all rfl, by with_unfolding_all rfl⟩
  rw [scanEmit, List.mem_filter]
  simp

/-- C3: for every stream and every split of it into chunks delivered to
the incremental extractor, as long as no percentage token of the stream
straddles a truncation point beyond the retained trailing window — no
span of the whole-stream scan crosses a stream position at which the
loop truncates its buffer (the claim's accepted gap) — the set of valid
percentages reported via the callback equals the set a single scan of
the whole concatenated stream reports. -/
theorem chunked_scan_mem_eq (chunks : List (List Char))
    (h : ∀ p ∈ truncCuts chunks 0 0,
      ∀ sp ∈ findSpans chunks.flatten, sp.2.1 ≤ p ∨ p ≤ sp.1) (v : ℚ) :
    (v ∈ (streamLoop true chunks).calls ↔ v ∈ scanEmit chunks.flatten) := by
  have haux := chunk_loop_aux chunks.flatten chunks 0 0 ⟨[], []⟩
    (by simp) (Nat.zero_le _) (by simp) le_rfl
    (by
      intro v hv
      rw [List.take_zero, show scanEmit [] = ([] : List ℚ) from rfl] at hv
      exact absurd hv (List.not_mem_nil v))
    (fun v hv => absurd hv (List.not_mem_nil v))
    (by
      intro m _ _
      simp [findPercents_nil])
    h
  exact ⟨fun hv => haux.1 v hv, fun hv => haux.2 v hv⟩

set_option maxRecDepth 40000 in
theorem chunked_scan_mem_eq_case :
    (∀ p ∈ truncCuts [List.replicate 125 'x' ++ "12%".toList, "34%".toList] 0 0,
      ∀ sp ∈ findSpans ([List.replicate 125 'x' ++ "12%".toList, "34%".toList]).flatten,
        sp.2.1 ≤ p ∨ p ≤ sp.1) ∧
    ((12 : ℚ) ∈
        (streamLoop true [List.replicate 125 'x' ++ "12%".toList, "34%".toList]).calls ↔
      (12 : ℚ) ∈ scanEmit (([List.replicate 125 'x' ++ "12%".toList,
        "34%".toList]).flatten)) :=
  ⟨of_decide_eq_true (by with_unfolding_all rfl),
   chunked_scan_mem_eq [List.replicate 125 'x' ++ "12%".toList, "34%".toList]
     (of_decide_eq_true (by with_unfolding_all rfl)) 12⟩

/-- Booleans split a count: the failures are the length minus the
successes. -/
theorem countP_bool_split (l : List FileJob) (p : FileJob → Bool) :
    l.countP (fun j => !(p j)) = l.length - l.countP p ∧ l.countP p ≤ l.length := by
  induction l with
  | nil => simp
  | cons a t ih =>
    obtain ⟨ih1, ih2⟩ := ih
    cases hp : p a <;> simp [List.countP_cons, hp] <;> omega

/-- The batch loop, fully unrolled from arbitrary accumulator values. -/
theorem convert_files_foldl_spec (cf : Bool) (total : Nat) :
    ∀ (files : List FileJob) (tr : List UIEvent) (idx s f : Nat),
    files.foldl (convertStep cf total) (tr, idx, s, f) =
      (tr ++ batchTrace cf total idx files,
       idx + files.length,
       s + files.countP (fun j => (run_chdman cf true j.chunks j.outcome).ok),
       f + files.countP (fun j => !(run_chdman cf true j.chunks j.outcome).ok)) := by
  intro files
  induction files with
  | nil => intro tr idx s f; simp [batchTrace]
  | cons j rest ih =>
    intro tr idx s f
    rw [List.foldl_cons]
    cases hok : (run_chdman cf true j.chunks j.outcome).ok
    · have hstep : convertStep cf total (tr, idx, s, f) j =
          (tr ++ [UIEvent.converting idx total j.name, UIEvent.progress 0] ++
            (run_chdman cf true j.chunks j.outcome).calls.map UIEvent.progress,
           idx + 1, s, f + 1) := by
        simp [convertStep, hok]
      rw [hstep, ih]
      simp only [batchTrace, List.countP_cons, hok, Prod.mk.injEq]
      refine ⟨by simp [List.append_assoc], by simp only [List.length_cons]; omega,
        by simp, by simp; omega⟩
    · have hstep : convertStep cf total (tr, idx, s, f) j =
          (tr ++ [UIEvent.converting idx total j.name, UIEvent.progress 0] ++
            (run_chdman cf true j.chunks j.outcome).calls.map UIEvent.progress,
           idx + 1, s + 1, f) := by
        simp [convertStep, hok]
      rw [hstep, ih]
      simp only [batchTrace, List.countP_cons, hok, Prod.mk.injEq]
      refine ⟨by simp [List.append_assoc], by simp only [List.length_cons]; omega,
        by simp; omega, by simp⟩

/-- C5: a batch of N files is processed sequentially — the UI trace is
the concatenation, in input order, of the per-file blocks, each opening
with the status line and a progress reset to 0 — and the completion
summary reports exactly the number K of successful conversions and
N - K failures. -/
theorem convert_files_trace_spec (cf : Bool) (system : String)
    (files : List FileJob) :
    convert_files cf system files =
      batchTrace cf files.length 1 files ++
        [UIEvent.idle, UIEvent.progress 0, UIEvent.clearPercent,
         UIEvent.summary system
           (files.countP (fun j => (run_chdman cf true j.chunks j.outcome).ok))
           (files.length -
             files.countP (fun j => (run_chdman cf true j.chunks j.outcome).ok))] := by
  unfold convert_files
  rw [convert_files_foldl_spec]
  have h := countP_bool_split files (fun j => (run_chdman cf true j.chunks j.outcome).ok)
  simp [h.1]

/-- C9: when the batch folder yields no file matching any of the
profile's accepted extensions, `select_batch` shows the "No files"
warning and returns without starting anything: its result is `warned`,
never the `started` branch (the only one that spawns the worker thread
and hence any subprocess). -/
theorem select_batch_no_files_warns (system f : String)
    (glob : String → String → List String)
    (h : (build_filetypes system).2.foldl (fun acc e => acc ++ glob f e) [] = []) :
    select_batch system (some f) glob = BatchSel.warned ∧
      ∀ files sys, select_batch system (some f) glob ≠ BatchSel.started files sys := by
  have hEmpty : ((build_filetypes system).2.foldl
      (fun acc e => acc ++ glob f e) []).isEmpty = true := by
    rw [h]; rfl
  have hmain : select_batch system (some f) glob = BatchSel.warned := by
    unfold select_batch
    simp [hEmpty]
  exact ⟨hmain, fun files sys hEq => by
    rw [hmain] at hEq; exact BatchSel.noConfusion hEq⟩

theorem select_batch_no_files_warns_case :
    select_batch "Sega Saturn" (some "roms") (fun _ _ => []) = BatchSel.warned ∧
      ∀ files sys, select_batch "Sega Saturn" (some "roms") (fun _ _ => []) ≠
        BatchSel.started files sys :=
  select_batch_no_files_warns "Sega Saturn" "roms" (fun _ _ => [])
    (by with_unfolding_all rfl)

/-- The rounding of a clamped value keeps the bar inside [0, 100]. -/
theorem pythonRound_bounds {q : ℚ} (h0 : 0 ≤ q) (h1 : q ≤ 100) :
    0 ≤ pythonRound q ∧ pythonRound q ≤ 100 := by
  have hf0 : (0 : ℤ) ≤ ⌊q⌋ := Int.floor_nonneg.mpr h0
  have hf1 : ⌊q⌋ ≤ 100 := by
    have := Int.floor_le_floor (α := ℚ) h1
    simpa using this
  unfold pythonRound
  by_cases hc1 : q - ⌊q⌋ < 1/2
  · rw [if_pos hc1]; exact ⟨hf0, hf1⟩
  · rw [if_neg hc1]
    by_cases hc2 : (1 : ℚ)/2 < q - ⌊q⌋
    · rw [if_pos hc2]
      refine ⟨by omega, ?_⟩
      by_cases h100 : ⌊q⌋ = 100
      · exfalso
        have hq : q - ⌊q⌋ ≤ 0 := by rw [h100]; push_cast; linarith
        linarith
      · omega
    · rw [if_neg hc2]
      by_cases hd : 2 ∣ ⌊q⌋
      · rw [if_pos hd]; exact ⟨hf0, hf1⟩
      · rw [if_neg hd]
        refine ⟨by omega, ?_⟩
        by_cases h100 : ⌊q⌋ = 100
        · exact absurd (h100 ▸ (by norm_num : (2 : ℤ) ∣ 100)) hd
        · omega

/-- One `set_progress` call always leaves the display inside [0, 100]. -/
theorem set_progress_bounds (p : ℚ) :
    0 ≤ (set_progress p).shown ∧ (set_progress p).shown ≤ 100 ∧
      0 ≤ (set_progress p).barValue ∧ (set_progress p).barValue ≤ 100 := by
  have h0 : (0 : ℚ) ≤ max 0 (min 100 p) := le_max_left _ _
  have h1 : max 0 (min 100 p) ≤ 100 := max_le (by norm_num) (min_le_left _ _)
  have hr := pythonRound_bounds h0 h1
  exact ⟨h0, h1, hr.1, hr.2⟩

/-- Folding any callback sequence over a display inside [0, 100] keeps
it inside [0, 100]. -/
theorem displayFold_bounds : ∀ (ps : List ℚ) (d : ProgressDisplay),
    (0 ≤ d.shown ∧ d.shown ≤ 100 ∧ 0 ≤ d.barValue ∧ d.barValue ≤ 100) →
    (0 ≤ (ps.foldl (fun _ p => set_progress p) d).shown ∧
      (ps.foldl (fun _ p => set_progress p) d).shown ≤ 100 ∧
      0 ≤ (ps.foldl (fun _ p => set_progress p) d).barValue ∧
      (ps.foldl (fun _ p => set_progress p) d).barValue ≤ 100) := by
  intro ps
  induction ps with
  | nil => intro d hd; simpa using hd
  | cons p t ih =>
    intro d _
    rw [List.foldl_cons]
    exact ih (set_progress p) (set_progress_bounds p)

/-- C10: every `set_progress` call applies the clamped value
max(0, min(100, p)) — to the label directly and to the bar after
rounding — so under every callback sequence the displayed state stays
inside [0, 100]. -/
theorem set_progress_clamp_invariant (p : ℚ) (ps : List ℚ) :
    (set_progress p).shown = max 0 (min 100 p) ∧
    (set_progress p).barValue = pythonRound (max 0 (min 100 p)) ∧
    0 ≤ (displayAfter ps).shown ∧ (displayAfter ps).shown ≤ 100 ∧
    0 ≤ (displayAfter ps).barValue ∧ (displayAfter ps).barValue ≤ 100 := by
  have hinit : 0 ≤ (⟨0, 0⟩ : ProgressDisplay).shown ∧
      (⟨0, 0⟩ : ProgressDisplay).shown ≤ 100 ∧
      0 ≤ (⟨0, 0⟩ : ProgressDisplay).barValue ∧
      (⟨0, 0⟩ : ProgressDisplay).barValue ≤ 100 := by
    refine ⟨le_refl 0, by norm_num, le_refl 0, by norm_num⟩
  have h := displayFold_bounds ps ⟨0, 0⟩ hinit
  exact ⟨rfl, rfl, h.1, h.2.1, h.2.2.1, h.2.2.2⟩
